import Mathlib

set_option maxRecDepth 16384

/-!
Shallow embedding of `src/requirements-answer-tool/frontend/script.js`
(utility layer: `getConfidenceClass`, `getFuzzyClass`,
`separateCommentAndAnswer`, `formatSourcesForExcel`).

Strings are modelled as `List Char` (one element per Unicode scalar) with
`String` wrappers.  The JavaScript regular expressions used by
`separateCommentAndAnswer` are hand-compiled into executable matchers that
follow the engine's leftmost / non-greedy / backtracking semantics for the
concrete patterns appearing in the source.
-/

namespace Script

/-- The JavaScript `\s` character class (also the set stripped by
`String.prototype.trim`). -/
def wsChars : List Char :=
  ['\t', '\n', Char.ofNat 11, Char.ofNat 12, '\r', ' ',
   ' ', ' ', ' ', ' ', ' ', ' ', ' ',
   ' ', ' ', ' ', ' ', ' ', ' ',
   ' ', ' ', ' ', ' ', '　', '﻿']

def isWs (c : Char) : Bool := wsChars.contains c

/-- Greedy `\s*`. -/
def skipWs (l : List Char) : List Char := l.dropWhile isWs

/-- JavaScript `String.prototype.trim`. -/
def trimBoth (l : List Char) : List Char :=
  ((l.dropWhile isWs).reverse.dropWhile isWs).reverse

/-- `.replace(/\*\*/g, '')`: drop every (leftmost, non-overlapping)
occurrence of `**`. -/
def stripStars : List Char → List Char
  | [] => []
  | [c] => [c]
  | c :: d :: r =>
    if c = '*' ∧ d = '*' then stripStars r else c :: stripStars (d :: r)

/-- Does the list contain two adjacent stars (an occurrence of the
substring `**`)? -/
def hasSS : List Char → Bool
  | [] => false
  | [_] => false
  | c :: d :: r => if c = '*' ∧ d = '*' then true else hasSS (d :: r)

/-- A JavaScript LineTerminator (ECMA-262): LF, CR, LINE SEPARATOR or
PARAGRAPH SEPARATOR — the characters `.` does not match when the `s`
flag is absent. -/
def isLineTerm (c : Char) : Bool :=
  c == '\n' || c == '\r' || c == '\u2028' || c == '\u2029'

/-- Not a LineTerminator (the character class of the no-`s`-flag dot). -/
def notLT (c : Char) : Bool := !isLineTerm c

/-- Scan for the leftmost `**` on the current line (`.` does not match a
LineTerminator).  On success returns the characters before it and the
characters after it.  This is the search for the closing `**` of
`/\*\*(.*?)\*\*/`. -/
def splitAtStars : List Char → Option (List Char × List Char)
  | [] => none
  | [_] => none
  | c :: d :: r =>
    if isLineTerm c = true then none
    else if c = '*' ∧ d = '*' then some ([], r)
    else (splitAtStars (d :: r)).map (fun p => (c :: p.1, p.2))

/-- `opener2 r = true` iff `r` starts with `*` and the remainder contains a
closing `**` on the same line: together with a preceding `*` this is a
position where `/\*\*(.*?)\*\*/` matches. -/
def opener2 : List Char → Bool
  | [] => false
  | c :: r => if c = '*' then (splitAtStars r).isSome else false

/-- `/\*\*(.*?)\*\*/` has a match somewhere in the list. -/
def hasBMatch : List Char → Bool
  | [] => false
  | c :: r => if c = '*' ∧ opener2 r = true then true else hasBMatch r

/-- `.replace(/\*\*(.*?)\*\*/g, '$1')`, fuelled recursion (fuel ≥ length).
At a failed opener (no closing `**` on its line) no match can start before
the next newline, so the whole line tail is emitted unchanged. -/
def removeBoldFuel : Nat → List Char → List Char
  | 0, l => l
  | _ + 1, [] => []
  | _ + 1, [c] => [c]
  | f + 1, c :: d :: rest =>
    if c = '*' ∧ d = '*' then
      match splitAtStars rest with
      | some (g, r2) => g ++ removeBoldFuel f r2
      | none =>
        match rest.dropWhile notLT with
        | [] => c :: d :: rest
        | e :: after =>
          c :: d :: (rest.takeWhile notLT ++ e :: removeBoldFuel f after)
    else c :: removeBoldFuel f (d :: rest)

/-- `.replace(/\*\*(.*?)\*\*/g, '$1')`. -/
def removeBold (l : List Char) : List Char := removeBoldFuel l.length l

/-- `.replace(/^\*\*.*?\*\*\s*:?\s*/g, '')` (no `s` flag: the dot does not
cross a newline; `^` only matches at position 0, so at most one removal). -/
def stripHeader (l : List Char) : List Char :=
  match l with
  | c :: d :: rest =>
    if c = '*' ∧ d = '*' then
      match splitAtStars rest with
      | some (_, r2) =>
        (match skipWs r2 with
         | ':' :: r4 => skipWs r4
         | r3 => r3)
      | none => l
    else l
  | _ => l

/-- The unconditional post-processing of the working answer text
(lines 617–620 of `script.js`). -/
def cleanupAnswer (l : List Char) : List Char :=
  trimBoth (removeBold (stripHeader l))

/-- Match a literal (case-insensitively when `ci`), returning the rest. -/
def matchLit (ci : Bool) : List Char → List Char → Option (List Char)
  | [], l => some l
  | _ :: _, [] => none
  | a :: v, c :: l =>
    if (if ci then a.toLower == c.toLower else a == c) then matchLit ci v l
    else none

/-- Non-greedy `.*?(?:\.|:)` (with the `s` flag): the characters up to and
including the first `.` or `:`, plus the remainder. -/
def findTerm : List Char → Option (List Char × List Char)
  | [] => none
  | c :: r =>
    if c == '.' || c == ':' then some ([c], r)
    else (findTerm r).map (fun p => (c :: p.1, p.2))

/-- `\s*:?\s*`. -/
def afterColonWs (l : List Char) : List Char :=
  match skipWs l with
  | ':' :: r => skipWs r
  | r => r

/-- One head alternative of a two-group commentary pattern
`/^(HEAD.*?(?:\.|:))\s*(.*)/s`: returns (group 1, group 2) on success.
Group 1 keeps the original characters even for case-insensitive heads. -/
def tryVariant (ci : Bool) (x : List Char) (v : String) :
    Option (List Char × List Char) :=
  match matchLit ci v.data x with
  | none => none
  | some rest =>
    match findTerm rest with
    | none => none
    | some (w, after) => some (x.take v.data.length ++ w, skipWs after)

/-- First head alternative (in the engine's backtracking order) that
matches and is followed by a terminator. -/
def firstVariant (ci : Bool) (x : List Char) : List String →
    Option (List Char × List Char)
  | [] => none
  | v :: vs =>
    match tryVariant ci x v with
    | some r => some r
    | none => firstVariant ci x vs

/-- One entry of the `commentPatterns` array: either a two-group
commentary pattern (given by its expanded head alternatives and
case-sensitivity) or a one-group header pattern
`/^LIT\s*:?\s*(.*)/s` given by its literal. -/
inductive Pat where
  | cp (ci : Bool) (variants : List String)
  | hp (lit : String)

/-- Run one pattern: `some (match1, match2?)` mirroring the capture
groups of the JavaScript match (`match2 = none` for one-group patterns). -/
def runPat : Pat → List Char → Option (List Char × Option (List Char))
  | .cp ci vs, x => (firstVariant ci x vs).map (fun p => (p.1, some p.2))
  | .hp lit, x =>
    match matchLit false lit.data x with
    | none => none
    | some rest => some (afterColonWs rest, none)

/-- The `commentPatterns` array of `separateCommentAndAnswer`, in source
order.  Alternations `(?:a|b)` and options `(?:u )?` are expanded into
head alternatives in the engine's backtracking order. -/
def patList : List Pat :=
  [ .cp false ["Basierend auf"],
    .cp false ["Aufgrund"],
    .cp false ["Laut"],
    .cp false ["Gemäß"],
    .cp false ["Entsprechend"],
    .cp false ["Unter Berücksichtigung"],
    .cp false ["Nach"],
    .cp false ["Anhand"],
    .cp false ["Durch"],
    .cp false ["Mit Blick auf"],
    .cp false ["Based on"],
    .cp false ["According to"],
    .cp false ["From the historical data"],
    .cp false ["Our previous experience shows"],
    .cp false ["The sources indicate"],
    .cp false ["Looking at similar projects"],
    .cp true ["Hier ist die umfassende Antwort", "Hier ist die Antwort",
              "Hier ist eine umfassende Antwort", "Hier ist eine Antwort"],
    .cp true ["Hier finden Sie die umfassende Antwort",
              "Hier finden Sie die Antwort",
              "Hier finden Sie eine umfassende Antwort",
              "Hier finden Sie eine Antwort"],
    .cp true ["Ich erstelle eine umfassende Antwort",
              "Ich erstelle eine Antwort",
              "Ich erstelle die umfassende Antwort",
              "Ich erstelle die Antwort"],
    .cp true ["Dies ist die umfassende Antwort", "Dies ist die Antwort",
              "Dies ist eine umfassende Antwort", "Dies ist eine Antwort"],
    .cp true ["Folgende Antwort"],
    .cp true ["Here is the comprehensive answer", "Here is the answer",
              "Here is a comprehensive answer", "Here is a answer"],
    .cp true ["Here\x27s the comprehensive answer", "Here\x27s the answer",
              "Here\x27s a comprehensive answer", "Here\x27s a answer"],
    .cp true ["I\x27ll provide a comprehensive answer",
              "I\x27ll provide a answer",
              "I\x27ll provide the comprehensive answer",
              "I\x27ll provide the answer"],
    .cp true ["This is the comprehensive answer", "This is the answer",
              "This is a comprehensive answer", "This is a answer"],
    .hp "**Antwort**",
    .hp "**Lösung**",
    .hp "Antwort",
    .hp "Lösung",
    .hp "**Answer**",
    .hp "**Response**",
    .hp "Answer",
    .hp "Response" ]

/-- The `for … break` loop: first matching pattern wins. -/
def findFirstMatch : List Pat → List Char →
    Option (List Char × Option (List Char))
  | [], _ => none
  | p :: ps, x =>
    match runPat p x with
    | some r => some r
    | none => findFirstMatch ps x

/-- `comments` contribution of a match: `match[1]`, with all `**` removed
and trimmed, pushed only when `match[1]` and the cleaned text are
non-empty.  (`comments.join(' ')` of at most one element.) -/
def commentOf (m1 : List Char) : List Char :=
  if m1.isEmpty then []
  else if (trimBoth (stripStars m1)).isEmpty then []
  else trimBoth (stripStars m1)

/-- `workingText = match[2] ? match[2].trim() : match[1].trim()`. -/
def workOf (m1 : List Char) (m2 : Option (List Char)) : List Char :=
  match m2 with
  | some g2 => if g2.isEmpty then trimBoth m1 else trimBoth g2
  | none => trimBoth m1

/-- Outcome of the pattern loop given the (optional) first match. -/
def finalizeLoop (x : List Char) :
    Option (List Char × Option (List Char)) → List Char × List Char
  | some (m1, m2) => (commentOf m1, workOf m1 m2)
  | none => ([], x)

/-- `(comments.join(' '), workingText)` after the loop. -/
def loopOutcome (x : List Char) : List Char × List Char :=
  finalizeLoop x (findFirstMatch patList x)

/-- `separateCommentAndAnswer` on character lists. -/
def separateCore (x : List Char) : List Char × List Char :=
  ((loopOutcome x).1, cleanupAnswer (loopOutcome x).2)

/-- `separateCommentAndAnswer` (script.js lines 548–626): returns
`(comment, answer)`. -/
def separateCommentAndAnswer (s : String) : String × String :=
  (String.mk (separateCore s.data).1, String.mk (separateCore s.data).2)

/-- What `separateCommentAndAnswer` would return if pattern `p` were the
only pattern consulted. -/
def resultVia (p : Pat) (s : String) : String × String :=
  (String.mk (finalizeLoop s.data (runPat p s.data)).1,
   String.mk (cleanupAnswer (finalizeLoop s.data (runPat p s.data)).2))

/-- `getConfidenceClass` (script.js lines 536–540), scores as rationals. -/
def getConfidenceClass (score : ℚ) : String :=
  if 7/10 ≤ score then "high"
  else if 4/10 ≤ score then "medium"
  else "low"

/-- `getFuzzyClass` (script.js lines 542–546). -/
def getFuzzyClass (score : ℚ) : String :=
  if 8/10 ≤ score then "high"
  else if 6/10 ≤ score then "medium"
  else "low"

/-- A `source` object as consumed by `formatSourcesForExcel`. -/
structure ExcelSource where
  question_text : String

/-- `Array.prototype.join(sep)`. -/
def joinSep (sep : String) : List String → String
  | [] => ""
  | [s] => s
  | s :: r :: rs => s ++ sep ++ joinSep sep (r :: rs)

/-- One mapped entry of `formatSourcesForExcel` (index `i` is 0-based). -/
def sourceEntry (i : Nat) (s : ExcelSource) : String :=
  "Source " ++ (toString (i + 1) ++ (": " ++ (s.question_text.take 100 ++
    (if 100 < s.question_text.length then "..." else ""))))

/-- `formatSourcesForExcel` (script.js lines 628–636); `none` models a
null/undefined argument. -/
def formatSourcesForExcel : Option (List ExcelSource) → String
  | none => "Keine Quellen"
  | some [] => "Keine Quellen"
  | some (s :: ss) =>
    joinSep " | " (((s :: ss).enum).map (fun p => sourceEntry p.1 p.2))

/-! ### Unfolding equations for the star-scanning primitives -/

theorem hasSS_two (c d : Char) (r : List Char) :
    hasSS (c :: d :: r) =
      if c = '*' ∧ d = '*' then true else hasSS (d :: r) := rfl

theorem splitAtStars_two (c d : Char) (r : List Char) :
    splitAtStars (c :: d :: r) =
      if isLineTerm c = true then none
      else if c = '*' ∧ d = '*' then some ([], r)
      else (splitAtStars (d :: r)).map (fun p => (c :: p.1, p.2)) := rfl

theorem lt_ne_star {t : Char} (ht : isLineTerm t = true) : t ≠ '*' := by
  intro he
  rw [he] at ht
  exact absurd ht (by decide)

theorem notLT_true {c : Char} (h : ¬ isLineTerm c = true) :
    notLT c = true := by
  unfold notLT
  rw [Bool.eq_false_iff.mpr h]
  rfl

theorem notLT_false {c : Char} (h : isLineTerm c = true) :
    notLT c = false := by
  unfold notLT
  rw [h]
  rfl

theorem opener2_cons (c : Char) (r : List Char) :
    opener2 (c :: r) =
      if c = '*' then (splitAtStars r).isSome else false := rfl

theorem hasBMatch_cons (c : Char) (r : List Char) :
    hasBMatch (c :: r) =
      if c = '*' ∧ opener2 r = true then true else hasBMatch r := rfl

theorem stripStars_two (c d : Char) (r : List Char) :
    stripStars (c :: d :: r) =
      if c = '*' ∧ d = '*' then stripStars r
      else c :: stripStars (d :: r) := rfl

/-! ### Lemmas about the star-scanning primitives -/

theorem hasSS_cons_false {c : Char} {l : List Char}
    (h : hasSS (c :: l) = false) : hasSS l = false := by
  cases l with
  | nil => rfl
  | cons d r =>
    rw [hasSS_two] at h
    split at h
    · exact absurd h (by simp)
    · exact h

theorem hasSS_cons_cons_not {c d : Char} {l : List Char}
    (h : hasSS (c :: d :: l) = false) : ¬(c = '*' ∧ d = '*') := by
  intro hcd
  rw [hasSS_two, if_pos hcd] at h
  exact absurd h (by simp)

theorem splitAtStars_decomp :
    ∀ {l : List Char} {g r : List Char},
      splitAtStars l = some (g, r) → l = g ++ '*' :: '*' :: r := by
  intro l
  induction l with
  | nil => intro g r h; simp [splitAtStars] at h
  | cons c t ih =>
    intro g r h
    cases t with
    | nil => simp [splitAtStars] at h
    | cons d r' =>
      rw [splitAtStars_two] at h
      split at h
      · exact absurd h (by simp)
      · split at h
        · rename_i hpair
          obtain ⟨hc, hd⟩ := hpair
          simp only [Option.some.injEq, Prod.mk.injEq] at h
          obtain ⟨hg, hr⟩ := h
          subst hc; subst hd; subst hg; subst hr; rfl
        · rw [Option.map_eq_some'] at h
          obtain ⟨⟨g', r''⟩, hp, he⟩ := h
          simp only [Prod.mk.injEq] at he
          obtain ⟨hg, hr⟩ := he
          subst hg; subst hr
          simpa using congrArg (c :: ·) (ih hp)

theorem splitAtStars_g_spec :
    ∀ {l : List Char} {g r : List Char},
      splitAtStars l = some (g, r) → ∀ x, hasSS (g ++ [x]) = false := by
  intro l
  induction l with
  | nil => intro g r h; simp [splitAtStars] at h
  | cons c t ih =>
    intro g r h x
    cases t with
    | nil => simp [splitAtStars] at h
    | cons d r' =>
      rw [splitAtStars_two] at h
      split at h
      · exact absurd h (by simp)
      · split at h
        · simp only [Option.some.injEq, Prod.mk.injEq] at h
          obtain ⟨hg, _⟩ := h
          subst hg; rfl
        · rename_i hnl hpair
          rw [Option.map_eq_some'] at h
          obtain ⟨⟨g', r''⟩, hp, he⟩ := h
          simp only [Prod.mk.injEq] at he
          obtain ⟨hg, hr⟩ := he
          subst hg; subst hr
          have hdec := splitAtStars_decomp hp
          cases g' with
          | nil =>
            -- then `d = '*'`, so `c ≠ '*'` by the failed pair test
            have hd : d = '*' := by
              simpa using congrArg (fun u => u.head?) hdec
            show hasSS (c :: [x]) = false
            rw [hasSS_two, if_neg]
            · rfl
            · rintro ⟨hc, _⟩
              exact hpair ⟨hc, hd⟩
          | cons e g'' =>
            have he' : d = e := by
              simpa using congrArg (fun u => u.head?) hdec
            subst he'
            have htail := ih hp x
            show hasSS (c :: d :: (g'' ++ [x])) = false
            rw [hasSS_two, if_neg hpair]
            simpa using htail

theorem splitAtStars_none_of_hasSS :
    ∀ {l : List Char}, hasSS l = false → splitAtStars l = none := by
  intro l
  induction l with
  | nil => intro _; rfl
  | cons c t ih =>
    intro h
    cases t with
    | nil => rfl
    | cons d r' =>
      rw [splitAtStars_two]
      split
      · rfl
      · rw [if_neg (hasSS_cons_cons_not h), ih (hasSS_cons_false h)]
        rfl

theorem splitAtStars_append_some :
    ∀ {l : List Char} {g r : List Char} (s : List Char),
      splitAtStars l = some (g, r) →
        splitAtStars (l ++ s) = some (g, r ++ s) := by
  intro l
  induction l with
  | nil => intro g r s h; simp [splitAtStars] at h
  | cons c t ih =>
    intro g r s h
    cases t with
    | nil => simp [splitAtStars] at h
    | cons d r' =>
      rw [splitAtStars_two] at h
      split at h
      · exact absurd h (by simp)
      · split at h
        · rename_i hnl hpair
          simp only [Option.some.injEq, Prod.mk.injEq] at h
          obtain ⟨hg, hr⟩ := h
          subst hg
          rw [← hr]
          show splitAtStars (c :: d :: (r' ++ s)) = some ([], r' ++ s)
          rw [splitAtStars_two, if_neg hnl, if_pos hpair]
        · rename_i hnl hpair
          rw [Option.map_eq_some'] at h
          obtain ⟨⟨g', r''⟩, hp, he⟩ := h
          simp only [Prod.mk.injEq] at he
          obtain ⟨hg, hr⟩ := he
          subst hg; subst hr
          show splitAtStars (c :: d :: (r' ++ s)) = _
          rw [splitAtStars_two, if_neg hnl, if_neg hpair]
          rw [show d :: (r' ++ s) = (d :: r') ++ s from rfl, ih s hp]
          rfl

theorem splitAtStars_none_tail {c : Char} {r : List Char}
    (hc : ¬ isLineTerm c = true) (h : splitAtStars (c :: r) = none) :
    splitAtStars r = none := by
  cases r with
  | nil => rfl
  | cons d r' =>
    rw [splitAtStars_two, if_neg hc] at h
    split at h
    · exact absurd h (by simp)
    · cases hs : splitAtStars (d :: r') with
      | none => rfl
      | some p => rw [hs] at h; exact absurd h (by simp)


theorem opener2_eq_true {r : List Char} (h : opener2 r = true) :
    ∃ t, r = '*' :: t ∧ (splitAtStars t).isSome = true := by
  cases r with
  | nil => simp [opener2] at h
  | cons c t =>
    rw [opener2_cons] at h
    split at h
    · rename_i hc; subst hc; exact ⟨t, rfl, h⟩
    · exact absurd h (by simp)

theorem hasBMatch_append_congr {g : List Char}
    (hg : ∀ x, hasSS (g ++ [x]) = false) (m : List Char) :
    hasBMatch (g ++ m) = hasBMatch m := by
  induction g with
  | nil => rfl
  | cons a g' ih =>
    have hg' : ∀ x, hasSS (g' ++ [x]) = false := fun x =>
      hasSS_cons_false (l := g' ++ [x]) (by simpa using hg x)
    show hasBMatch (a :: (g' ++ m)) = hasBMatch m
    rw [hasBMatch_cons, if_neg, ih hg']
    rintro ⟨ha, hop⟩
    obtain ⟨t, ht, _⟩ := opener2_eq_true hop
    cases g' with
    | nil =>
      have := hg '*'
      rw [show [a] ++ ['*'] = a :: '*' :: ([] : List Char) from rfl,
        hasSS_two, if_pos ⟨ha, rfl⟩] at this
      exact absurd this (by simp)
    | cons e g'' =>
      have he : e = '*' := by simpa using congrArg List.head? ht
      have := hg '*'
      rw [show (a :: e :: g'') ++ ['*'] = a :: e :: (g'' ++ ['*']) from rfl,
        hasSS_two, if_pos ⟨ha, he⟩] at this
      exact absurd this (by simp)

theorem hasBMatch_append_right {m : List Char} (h : hasBMatch m = true) :
    ∀ g, hasBMatch (g ++ m) = true := by
  intro g
  induction g with
  | nil => exact h
  | cons a g' ih =>
    show hasBMatch (a :: (g' ++ m)) = true
    rw [hasBMatch_cons]
    split
    · rfl
    · exact ih

theorem opener2_append {r : List Char} (s : List Char)
    (h : opener2 r = true) : opener2 (r ++ s) = true := by
  obtain ⟨t, ht, hs⟩ := opener2_eq_true h
  subst ht
  show opener2 ('*' :: (t ++ s)) = true
  rw [opener2_cons, if_pos rfl]
  obtain ⟨⟨g, r2⟩, hp⟩ := Option.isSome_iff_exists.mp hs
  rw [splitAtStars_append_some s hp]
  rfl

theorem hasBMatch_append_left :
    ∀ (g m : List Char), hasBMatch g = true → hasBMatch (g ++ m) = true := by
  intro g
  induction g with
  | nil => intro m h; exact absurd h (by simp [hasBMatch])
  | cons a g' ih =>
    intro m h
    show hasBMatch (a :: (g' ++ m)) = true
    rw [hasBMatch_cons] at h ⊢
    split at h
    · rename_i hcond
      rw [if_pos ⟨hcond.1, opener2_append m hcond.2⟩]
    · split
      · rfl
      · exact ih m h

theorem hasBMatch_infix {p m s : List Char} (h : hasBMatch m = true) :
    hasBMatch (p ++ m ++ s) = true := by
  rw [List.append_assoc]
  exact hasBMatch_append_right (hasBMatch_append_left m s h) p

theorem hasBMatch_of_hasSS_false :
    ∀ {y : List Char}, hasSS y = false → hasBMatch y = false := by
  intro y
  induction y with
  | nil => intro _; rfl
  | cons c t ih =>
    intro h
    rw [hasBMatch_cons, if_neg, ih (hasSS_cons_false h)]
    rintro ⟨hc, hop⟩
    obtain ⟨u, hu, _⟩ := opener2_eq_true hop
    subst hu
    rw [hasSS_two, if_pos ⟨hc, rfl⟩] at h
    exact absurd h (by simp)

theorem hasBMatch_nl :
    ∀ (y : List Char), hasSS y = false → ∀ (t : Char), t ≠ '*' → ∀ X,
      hasBMatch (y ++ t :: X) = hasBMatch X := by
  intro y
  induction y with
  | nil =>
    intro _ t ht X
    show hasBMatch (t :: X) = _
    rw [hasBMatch_cons, if_neg]
    rintro ⟨hc, _⟩
    exact ht hc
  | cons c y' ih =>
    intro h t ht X
    show hasBMatch (c :: (y' ++ t :: X)) = _
    rw [hasBMatch_cons, if_neg, ih (hasSS_cons_false h) t ht X]
    rintro ⟨hc, hop⟩
    obtain ⟨u, hu, _⟩ := opener2_eq_true hop
    cases y' with
    | nil =>
      injection hu with h1 _
      exact ht h1
    | cons e y'' =>
      have he : e = '*' := by simpa using congrArg List.head? hu
      rw [hasSS_two, if_pos ⟨hc, he⟩] at h
      exact absurd h (by simp)

theorem splitAtStars_ltcons {t : Char} (ht : isLineTerm t = true)
    (X : List Char) : splitAtStars (t :: X) = none := by
  cases X with
  | nil => rfl
  | cons x X' => rw [splitAtStars_two, if_pos ht]

theorem splitAtStars_ws_append :
    ∀ (y : List Char), hasSS y = false → ∀ {t : Char},
      isLineTerm t = true → ∀ X, splitAtStars (y ++ t :: X) = none := by
  intro y
  induction y with
  | nil => intro _ t ht X; exact splitAtStars_ltcons ht X
  | cons c y' ih =>
    intro h t ht X
    cases y' with
    | nil =>
      show splitAtStars (c :: t :: X) = none
      rw [splitAtStars_two]
      by_cases hnl : isLineTerm c = true
      · rw [if_pos hnl]
      · rw [if_neg hnl, if_neg (by rintro ⟨_, h2⟩; exact lt_ne_star ht h2),
          splitAtStars_ltcons ht X]
        rfl
    | cons e y'' =>
      show splitAtStars (c :: e :: (y'' ++ t :: X)) = none
      rw [splitAtStars_two]
      by_cases hnl : isLineTerm c = true
      · rw [if_pos hnl]
      · rw [if_neg hnl, if_neg (hasSS_cons_cons_not h)]
        have := ih (hasSS_cons_false h) ht X
        rw [show e :: (y'' ++ t :: X) = (e :: y'') ++ t :: X from rfl,
          this]
        rfl

theorem dropWhile_head_false {p : Char → Bool} :
    ∀ {l : List Char} {c : Char} {t : List Char},
      l.dropWhile p = c :: t → p c = false := by
  intro l
  induction l with
  | nil => intro c t h; simp at h
  | cons a l' ih =>
    intro c t h
    rw [List.dropWhile_cons] at h
    split at h
    · exact ih h
    · rename_i hpa
      injection h with h1 _
      subst h1
      exact Bool.eq_false_iff.mpr hpa

theorem hasSS_takeWhile_of_none :
    ∀ {l : List Char}, splitAtStars l = none →
      hasSS (l.takeWhile notLT) = false := by
  intro l
  induction l with
  | nil => intro _; rfl
  | cons c t ih =>
    intro h
    cases t with
    | nil =>
      rw [List.takeWhile_cons]
      split
      · rfl
      · rfl
    | cons d r' =>
      rw [splitAtStars_two] at h
      split at h
      · rename_i hnl
        rw [List.takeWhile_cons, if_neg (by rw [notLT_false hnl]; simp)]
        rfl
      · split at h
        · exact absurd h (by simp)
        · rename_i hnl hpair
          have hd : splitAtStars (d :: r') = none := by
            cases hs : splitAtStars (d :: r') with
            | none => rfl
            | some p => rw [hs] at h; exact absurd h (by simp)
          have hih := ih hd
          rw [List.takeWhile_cons, if_pos (notLT_true hnl)]
          rw [List.takeWhile_cons] at hih ⊢
          by_cases hdn : notLT d = true
          · rw [if_pos hdn] at hih ⊢
            rw [hasSS_two, if_neg hpair]
            exact hih
          · rw [if_neg hdn]
            rfl

theorem hasSS_of_none_noNl {l : List Char} (h : splitAtStars l = none)
    (hd : l.dropWhile notLT = []) : hasSS l = false := by
  have hl : l.takeWhile notLT = l := by
    conv_rhs => rw [← List.takeWhile_append_dropWhile (p := notLT) (l := l)]
    rw [hd, List.append_nil]
  rw [← hl]
  exact hasSS_takeWhile_of_none h

/-! ### The bold-removal pass leaves no further match -/

theorem removeBoldFuel_two (f : Nat) (c d : Char) (rest : List Char) :
    removeBoldFuel (f+1) (c :: d :: rest) =
      if c = '*' ∧ d = '*' then
        match splitAtStars rest with
        | some (g, r2) => g ++ removeBoldFuel f r2
        | none =>
          match rest.dropWhile notLT with
          | [] => c :: d :: rest
          | e :: after =>
            c :: d :: (rest.takeWhile notLT ++ e :: removeBoldFuel f after)
      else c :: removeBoldFuel f (d :: rest) := rfl

theorem stripHeader_two (c d : Char) (rest : List Char) :
    stripHeader (c :: d :: rest) =
      if c = '*' ∧ d = '*' then
        match splitAtStars rest with
        | some (_, r2) =>
          (match skipWs r2 with
           | ':' :: r4 => skipWs r4
           | r3 => r3)
        | none => c :: d :: rest
      else c :: d :: rest := rfl

theorem removeBoldFuel_head {d : Char} (hd : d ≠ '*') (f : Nat)
    (rest : List Char) : ∃ t, removeBoldFuel f (d :: rest) = d :: t := by
  cases f with
  | zero => exact ⟨rest, rfl⟩
  | succ f' =>
    cases rest with
    | nil => exact ⟨[], rfl⟩
    | cons e rest' =>
      rw [removeBoldFuel_two, if_neg (by rintro ⟨h1, _⟩; exact hd h1)]
      exact ⟨_, rfl⟩

theorem hasBMatch_removeBoldFuel :
    ∀ (f : Nat) (l : List Char), l.length ≤ f →
      hasBMatch (removeBoldFuel f l) = false := by
  intro f
  induction f with
  | zero =>
    intro l hl
    have h0 : l = [] := List.length_eq_zero.mp (Nat.le_zero.mp hl)
    subst h0; rfl
  | succ f' ih =>
    intro l hl
    cases l with
    | nil => rfl
    | cons c t =>
      cases t with
      | nil =>
        show hasBMatch [c] = false
        rw [hasBMatch_cons, if_neg]
        · rfl
        · rintro ⟨_, hop⟩; simp [opener2] at hop
      | cons d rest =>
        rw [removeBoldFuel_two]
        by_cases hpair : c = '*' ∧ d = '*'
        · rw [if_pos hpair]
          obtain ⟨hc, hd⟩ := hpair
          cases hsp : splitAtStars rest with
          | some p =>
            obtain ⟨g, r2⟩ := p
            show hasBMatch (g ++ removeBoldFuel f' r2) = false
            rw [hasBMatch_append_congr (splitAtStars_g_spec hsp)]
            apply ih
            have hdec := splitAtStars_decomp hsp
            have hlg : rest.length = g.length + (r2.length + 2) := by
              rw [hdec]; simp [List.length_append]
            have hlen : rest.length + 2 ≤ f' + 1 := by
              simpa [List.length_cons] using hl
            omega
          | none =>
            cases hdw : rest.dropWhile notLT with
            | nil =>
              show hasBMatch (c :: d :: rest) = false
              subst hc; subst hd
              have hss : hasSS rest = false := hasSS_of_none_noNl hsp hdw
              rw [hasBMatch_cons, if_neg]
              · rw [hasBMatch_cons, if_neg]
                · exact hasBMatch_of_hasSS_false hss
                · rintro ⟨_, hop⟩
                  obtain ⟨u, hu, hs⟩ := opener2_eq_true hop
                  subst hu
                  rw [splitAtStars_none_tail (by decide) hsp] at hs
                  exact absurd hs (by simp)
              · rintro ⟨_, hop⟩
                rw [opener2_cons, if_pos rfl, hsp] at hop
                exact absurd hop (by simp)
            | cons e after =>
              have he : isLineTerm e = true := by
                have := dropWhile_head_false hdw
                simpa [notLT] using this
              have hestar : e ≠ '*' := lt_ne_star he
              subst hc; subst hd
              have hss : hasSS (rest.takeWhile notLT) = false :=
                hasSS_takeWhile_of_none hsp
              show hasBMatch ('*' :: '*' ::
                (rest.takeWhile notLT ++ e ::
                  removeBoldFuel f' after)) = false
              rw [hasBMatch_cons, if_neg, hasBMatch_cons, if_neg,
                hasBMatch_nl _ hss e hestar _]
              · apply ih
                have hre := List.takeWhile_append_dropWhile
                  (p := notLT) (l := rest)
                rw [hdw] at hre
                have hlena := congrArg List.length hre
                simp [List.length_append] at hlena
                have hlen : rest.length + 2 ≤ f' + 1 := by
                  simpa [List.length_cons] using hl
                omega
              · rintro ⟨_, hop⟩
                obtain ⟨u, hu, hs⟩ := opener2_eq_true hop
                cases htk : rest.takeWhile notLT with
                | nil =>
                  rw [htk] at hu
                  injection hu with h1 _
                  exact hestar h1
                | cons e' y' =>
                  rw [htk] at hu hss
                  have he' : e' = '*' := by
                    simpa using congrArg List.head? hu
                  have hu' : u = y' ++ e :: removeBoldFuel f' after := by
                    have := congrArg List.tail hu
                    simpa using this.symm
                  rw [hu', splitAtStars_ws_append y'
                    (hasSS_cons_false hss) he _] at hs
                  exact absurd hs (by simp)
              · rintro ⟨_, hop⟩
                rw [opener2_cons, if_pos rfl,
                  splitAtStars_ws_append _ hss he _] at hop
                exact absurd hop (by simp)
        · rw [if_neg hpair]
          rw [hasBMatch_cons, if_neg]
          · apply ih
            have hlen : rest.length + 2 ≤ f' + 1 := by
              simpa [List.length_cons] using hl
            simp [List.length_cons]
            omega
          · rintro ⟨hc, hop⟩
            have hd : d ≠ '*' := fun hd => hpair ⟨hc, hd⟩
            obtain ⟨t, htt⟩ := removeBoldFuel_head hd f' rest
            rw [htt, opener2_cons, if_neg hd] at hop
            exact absurd hop (by simp)

theorem hasBMatch_removeBold (l : List Char) :
    hasBMatch (removeBold l) = false :=
  hasBMatch_removeBoldFuel l.length l le_rfl

/-- When the pair at the head of `'*' :: '*' :: rest` has no closing
`**` (i.e. the whole list has no match), extract that fact. -/
theorem splitAtStars_none_of_noMatch {c d : Char} {rest : List Char}
    (hc : c = '*') (hd : d = '*')
    (h : hasBMatch (c :: d :: rest) = false) :
    splitAtStars rest = none := by
  cases hs2 : splitAtStars rest with
  | none => rfl
  | some p =>
    exfalso
    rw [hasBMatch_cons,
      if_pos ⟨hc, by rw [opener2_cons, if_pos hd, hs2]; rfl⟩] at h
    exact absurd h (by simp)

theorem hasBMatch_cons_false' {c : Char} {t : List Char}
    (h : hasBMatch (c :: t) = false) : hasBMatch t = false := by
  rw [hasBMatch_cons] at h
  split at h
  · exact absurd h (by simp)
  · exact h

theorem removeBoldFuel_id :
    ∀ (f : Nat) {l : List Char}, hasBMatch l = false →
      removeBoldFuel f l = l := by
  intro f
  induction f with
  | zero => intro l _; rfl
  | succ f' ih =>
    intro l h
    cases l with
    | nil => rfl
    | cons c t =>
      cases t with
      | nil => rfl
      | cons d rest =>
        rw [removeBoldFuel_two]
        by_cases hpair : c = '*' ∧ d = '*'
        · rw [if_pos hpair]
          obtain ⟨hc, hd⟩ := hpair
          have hsp : splitAtStars rest = none :=
            splitAtStars_none_of_noMatch hc hd h
          rw [hsp]
          cases hdw : rest.dropWhile notLT with
          | nil => rfl
          | cons e after =>
            have hre : rest.takeWhile notLT ++ e :: after = rest := by
              rw [← hdw]
              exact List.takeWhile_append_dropWhile ..
            have hM : removeBoldFuel f' after = after := by
              apply ih
              cases hba : hasBMatch after with
              | false => rfl
              | true =>
                exfalso
                have hbig := hasBMatch_append_right hba
                  (c :: d :: (rest.takeWhile notLT ++ [e]))
                rw [show (c :: d :: (rest.takeWhile notLT ++ [e]))
                    ++ after = c :: d :: rest from by
                  simp only [List.cons_append, List.append_assoc,
                    List.singleton_append, List.nil_append]
                  rw [hre]] at hbig
                rw [hbig] at h
                exact absurd h (by simp)
            show c :: d ::
              (rest.takeWhile notLT ++ e :: removeBoldFuel f' after) =
                c :: d :: rest
            rw [hM, hre]
        · rw [if_neg hpair, ih (hasBMatch_cons_false' h)]

theorem removeBold_id {l : List Char} (h : hasBMatch l = false) :
    removeBold l = l :=
  removeBoldFuel_id _ h

theorem stripHeader_id {l : List Char} (h : hasBMatch l = false) :
    stripHeader l = l := by
  cases l with
  | nil => rfl
  | cons c t =>
    cases t with
    | nil => rfl
    | cons d rest =>
      by_cases hpair : c = '*' ∧ d = '*'
      · rw [stripHeader_two, if_pos hpair,
          splitAtStars_none_of_noMatch hpair.1 hpair.2 h]
      · rw [stripHeader_two, if_neg hpair]

/-! ### Trimming -/

theorem dropWhile_dropWhile (p : Char → Bool) (l : List Char) :
    List.dropWhile p (List.dropWhile p l) = List.dropWhile p l := by
  cases hd : List.dropWhile p l with
  | nil => rfl
  | cons c t => simp [List.dropWhile_cons, dropWhile_head_false hd]

theorem trimBoth_decomp (l : List Char) :
    ∃ p s, l = p ++ trimBoth l ++ s := by
  refine ⟨l.takeWhile isWs,
    ((l.dropWhile isWs).reverse.takeWhile isWs).reverse, ?_⟩
  unfold trimBoth
  conv_lhs => rw [← List.takeWhile_append_dropWhile (p := isWs) (l := l)]
  rw [List.append_assoc]
  congr 1
  rw [← List.reverse_append, List.takeWhile_append_dropWhile,
    List.reverse_reverse]

theorem hasBMatch_trimBoth {l : List Char} (h : hasBMatch l = false) :
    hasBMatch (trimBoth l) = false := by
  obtain ⟨p, s, hdec⟩ := trimBoth_decomp l
  cases hb : hasBMatch (trimBoth l) with
  | false => rfl
  | true =>
    exfalso
    rw [hdec, hasBMatch_infix hb] at h
    exact absurd h (by simp)

theorem trimBoth_idem (l : List Char) :
    trimBoth (trimBoth l) = trimBoth l := by
  show ((trimBoth l |>.dropWhile isWs).reverse.dropWhile isWs).reverse = _
  have h1 : (trimBoth l).dropWhile isWs = trimBoth l := by
    cases ht : trimBoth l with
    | nil => rfl
    | cons c t' =>
      have hmt : l.dropWhile isWs =
          trimBoth l ++ ((l.dropWhile isWs).reverse.takeWhile isWs).reverse := by
        unfold trimBoth
        rw [← List.reverse_append, List.takeWhile_append_dropWhile,
          List.reverse_reverse]
      have hc : isWs c = false := by
        apply dropWhile_head_false (p := isWs) (l := l)
        rw [hmt, ht]
        rfl
      simp [List.dropWhile_cons, hc]
  rw [h1]
  have h2 : (trimBoth l).reverse.dropWhile isWs = (trimBoth l).reverse := by
    have hrev : (trimBoth l).reverse =
        (l.dropWhile isWs).reverse.dropWhile isWs := by
      unfold trimBoth
      rw [List.reverse_reverse]
    rw [hrev, dropWhile_dropWhile]
  rw [h2, List.reverse_reverse]

/-! ### The post-processing pass -/

theorem cleanupAnswer_noMatch (l : List Char) :
    hasBMatch (cleanupAnswer l) = false :=
  hasBMatch_trimBoth (hasBMatch_removeBold _)

theorem cleanupAnswer_idem (l : List Char) :
    cleanupAnswer (cleanupAnswer l) = cleanupAnswer l := by
  have h := cleanupAnswer_noMatch l
  show trimBoth (removeBold (stripHeader (cleanupAnswer l))) = _
  rw [stripHeader_id h, removeBold_id h]
  show trimBoth (trimBoth (removeBold (stripHeader l))) = _
  rw [trimBoth_idem]
  rfl

/-! ### The comment clean-up removes every `**` -/

theorem stripStars_head {d : Char} (hd : d ≠ '*') (r : List Char) :
    ∃ t, stripStars (d :: r) = d :: t := by
  cases r with
  | nil => exact ⟨[], rfl⟩
  | cons e r' =>
    rw [stripStars_two, if_neg (by rintro ⟨h1, _⟩; exact hd h1)]
    exact ⟨_, rfl⟩

theorem hasSS_stripStars : ∀ l, hasSS (stripStars l) = false
  | [] => rfl
  | [_] => rfl
  | c :: d :: r => by
    rw [stripStars_two]
    by_cases hpair : c = '*' ∧ d = '*'
    · rw [if_pos hpair]
      exact hasSS_stripStars r
    · rw [if_neg hpair]
      by_cases hc : c = '*'
      · have hd : d ≠ '*' := fun h => hpair ⟨hc, h⟩
        obtain ⟨t, ht⟩ := stripStars_head hd r
        have hrec := hasSS_stripStars (d :: r)
        rw [ht] at hrec ⊢
        rw [hasSS_two, if_neg (by rintro ⟨_, h2⟩; exact hd h2)]
        exact hrec
      · cases hss : stripStars (d :: r) with
        | nil => rfl
        | cons e t =>
          have hrec := hasSS_stripStars (d :: r)
          rw [hss] at hrec
          rw [hasSS_two, if_neg (by rintro ⟨h1, _⟩; exact hc h1)]
          exact hrec

theorem hasSS_append_right {m : List Char} (h : hasSS m = true) :
    ∀ g, hasSS (g ++ m) = true := by
  intro g
  induction g with
  | nil => exact h
  | cons a g' ih =>
    cases hgm : g' ++ m with
    | nil =>
      exfalso
      obtain ⟨_, hm⟩ := List.append_eq_nil.mp hgm
      rw [hm] at h
      exact absurd h (by simp [hasSS])
    | cons e t =>
      show hasSS (a :: (g' ++ m)) = true
      rw [hgm, hasSS_two]
      split
      · rfl
      · have := ih; rw [hgm] at this; exact this

theorem hasSS_append_left :
    ∀ (g m : List Char), hasSS g = true → hasSS (g ++ m) = true := by
  intro g
  induction g with
  | nil => intro m h; exact absurd h (by simp [hasSS])
  | cons a g' ih =>
    intro m h
    cases g' with
    | nil => exact absurd h (by simp [hasSS])
    | cons b g'' =>
      rw [hasSS_two] at h
      show hasSS (a :: b :: (g'' ++ m)) = true
      rw [hasSS_two]
      split at h
      · rename_i hp; rw [if_pos hp]
      · split
        · rfl
        · exact ih m h

theorem hasSS_infix_false {p m s : List Char}
    (h : hasSS (p ++ m ++ s) = false) : hasSS m = false := by
  cases hm : hasSS m with
  | false => rfl
  | true =>
    exfalso
    have h2 := hasSS_append_right (hasSS_append_left m s hm) p
    rw [← List.append_assoc] at h2
    rw [h2] at h
    exact absurd h (by simp)

theorem hasSS_trimBoth {l : List Char} (h : hasSS l = false) :
    hasSS (trimBoth l) = false := by
  obtain ⟨p, s, hdec⟩ := trimBoth_decomp l
  rw [hdec] at h
  exact hasSS_infix_false h

/-! ### The pattern loop -/

theorem findFirstMatch_cons (p : Pat) (ps : List Pat) (x : List Char) :
    findFirstMatch (p :: ps) x =
      match runPat p x with
      | some r => some r
      | none => findFirstMatch ps x := rfl

theorem firstVariant_cons (ci : Bool) (x : List Char) (v : String)
    (vs : List String) :
    firstVariant ci x (v :: vs) =
      match tryVariant ci x v with
      | some r => some r
      | none => firstVariant ci x vs := rfl

theorem matchLit_cons (ci : Bool) (a : Char) (v : List Char) (c : Char)
    (l : List Char) :
    matchLit ci (a :: v) (c :: l) =
      if (if ci then a.toLower == c.toLower else a == c) then matchLit ci v l
      else none := rfl

theorem findFirstMatch_eq_none :
    ∀ {ps : List Pat} {x : List Char},
      (∀ p ∈ ps, runPat p x = none) → findFirstMatch ps x = none := by
  intro ps
  induction ps with
  | nil => intro x _; rfl
  | cons p ps' ih =>
    intro x h
    rw [findFirstMatch_cons, h p (List.mem_cons_self p ps')]
    exact ih (fun q hq => h q (List.mem_cons_of_mem _ hq))

theorem findFirstMatch_append {x : List Char} :
    ∀ {ps₁ : List Pat}, (∀ q ∈ ps₁, runPat q x = none) → ∀ (ps₂ : List Pat),
      findFirstMatch (ps₁ ++ ps₂) x = findFirstMatch ps₂ x := by
  intro ps₁
  induction ps₁ with
  | nil => intro _ ps₂; rfl
  | cons p ps' ih =>
    intro h ps₂
    show findFirstMatch (p :: (ps' ++ ps₂)) x = _
    rw [findFirstMatch_cons, h p (List.mem_cons_self p ps')]
    exact ih (fun q hq => h q (List.mem_cons_of_mem _ hq)) ps₂

/-! ### No pattern fires on empty or whitespace-only input -/

/-- First-character comparison failure for one head alternative. -/
def headMismatch (ci : Bool) (a c : Char) : Bool :=
  !(if ci then a.toLower == c.toLower else a == c)

/-- Every head alternative of the pattern is non-empty and rejects `c` as
its first character. -/
def patRejects (p : Pat) (c : Char) : Bool :=
  match p with
  | .cp ci vs => vs.all (fun v =>
      match v.data with
      | [] => false
      | a :: _ => headMismatch ci a c)
  | .hp lit =>
    match lit.data with
    | [] => false
    | a :: _ => headMismatch false a c

/-- Every head alternative of the pattern is non-empty. -/
def patFull (p : Pat) : Bool :=
  match p with
  | .cp _ vs => vs.all (fun v => !v.data.isEmpty)
  | .hp lit => !lit.data.isEmpty

theorem firstVariant_none_of_rejects {ci : Bool} {c : Char} {x' : List Char} :
    ∀ (vs : List String),
      (vs.all (fun v =>
        match v.data with
        | [] => false
        | a :: _ => headMismatch ci a c)) = true →
      firstVariant ci (c :: x') vs = none := by
  intro vs
  induction vs with
  | nil => intro _; rfl
  | cons v vs' ih =>
    intro h
    rw [List.all_cons, Bool.and_eq_true] at h
    obtain ⟨hv, hrest⟩ := h
    rw [firstVariant_cons]
    have hnone : tryVariant ci (c :: x') v = none := by
      unfold tryVariant
      cases hvd : v.data with
      | nil => rw [hvd] at hv; exact absurd hv (by simp)
      | cons a v' =>
        rw [hvd] at hv
        have hc : (if ci then a.toLower == c.toLower else a == c) = false := by
          simpa [headMismatch] using hv
        rw [matchLit_cons, hc]
        simp
    rw [hnone]
    exact ih hrest

theorem runPat_none_of_rejects {p : Pat} {c : Char} {x' : List Char}
    (hr : patRejects p c = true) : runPat p (c :: x') = none := by
  cases p with
  | cp ci vs =>
    show (firstVariant ci (c :: x') vs).map _ = none
    rw [firstVariant_none_of_rejects vs hr]
    rfl
  | hp lit =>
    have hr' : (match lit.data with
      | [] => false
      | a :: _ => headMismatch false a c) = true := hr
    show (match matchLit false lit.data (c :: x') with
      | none => none
      | some rest => some (afterColonWs rest, none)) = none
    cases hld : lit.data with
    | nil =>
      rw [hld] at hr'
      exact absurd hr' (by simp)
    | cons a v' =>
      rw [hld] at hr'
      have hc : (if false then a.toLower == c.toLower else a == c) = false := by
        simpa [headMismatch] using hr'
      rw [matchLit_cons, hc]
      simp

theorem firstVariant_nil_none (ci : Bool) :
    ∀ (vs : List String), (vs.all fun v => !v.data.isEmpty) = true →
      firstVariant ci [] vs = none := by
  intro vs
  induction vs with
  | nil => intro _; rfl
  | cons v vs' ih =>
    intro h
    rw [List.all_cons, Bool.and_eq_true] at h
    obtain ⟨hv, hrest⟩ := h
    rw [firstVariant_cons]
    have hnone : tryVariant ci [] v = none := by
      unfold tryVariant
      cases hvd : v.data with
      | nil => rw [hvd] at hv; simp at hv
      | cons a v' => rfl
    rw [hnone]
    exact ih hrest

theorem runPat_nil_none {p : Pat} (hp : patFull p = true) :
    runPat p [] = none := by
  cases p with
  | cp ci vs =>
    have hp' : (vs.all fun v => !v.data.isEmpty) = true := hp
    show (firstVariant ci [] vs).map _ = none
    rw [firstVariant_nil_none ci vs hp']
    rfl
  | hp lit =>
    have hp' : (!lit.data.isEmpty) = true := hp
    show (match matchLit false lit.data [] with
      | none => none
      | some rest => some (afterColonWs rest, none)) = none
    cases hld : lit.data with
    | nil =>
      rw [hld] at hp'
      simp at hp'
    | cons a v' => rfl

theorem wsRejectsAll : ∀ c ∈ wsChars, ∀ p ∈ patList, patRejects p c = true := by
  decide

theorem patsFull : ∀ p ∈ patList, patFull p = true := by decide

theorem hasSS_of_ws {l : List Char} (h : ∀ c ∈ l, isWs c = true) :
    hasSS l = false := by
  induction l with
  | nil => rfl
  | cons c t ih =>
    cases t with
    | nil => rfl
    | cons d r =>
      rw [hasSS_two, if_neg]
      · exact ih (fun e he => h e (List.mem_cons_of_mem _ he))
      · rintro ⟨hc, _⟩
        have := h c (List.mem_cons_self ..)
        rw [hc] at this
        exact absurd this (by decide)

theorem trimBoth_ws {l : List Char} (h : ∀ c ∈ l, isWs c = true) :
    trimBoth l = [] := by
  unfold trimBoth
  rw [List.dropWhile_eq_nil_iff.mpr h]
  rfl


/-! ### Confidence bands -/

theorem getConfidenceClass_high (q : ℚ) :
    getConfidenceClass q = "high" ↔ 7/10 ≤ q := by
  unfold getConfidenceClass
  split
  · rename_i h; simp [h]
  · rename_i h
    split
    · simp [h]
    · simp [h]

theorem getConfidenceClass_medium (q : ℚ) :
    getConfidenceClass q = "medium" ↔ 4/10 ≤ q ∧ q < 7/10 := by
  unfold getConfidenceClass
  split
  · rename_i h; simp [not_lt.mpr h]
  · rename_i h
    split
    · rename_i h4; simp [h4, not_le.mp h]
    · rename_i h4; simp [h4]

theorem getConfidenceClass_low (q : ℚ) :
    getConfidenceClass q = "low" ↔ q < 4/10 := by
  unfold getConfidenceClass
  split
  · rename_i h
    have hle : (4:ℚ)/10 ≤ 7/10 := by norm_num
    simp [not_lt.mpr (le_trans hle h)]
  · rename_i h
    split
    · rename_i h4; simp [not_lt.mpr h4]
    · rename_i h4; simp [not_le.mp h4]

theorem getFuzzyClass_high (q : ℚ) :
    getFuzzyClass q = "high" ↔ 8/10 ≤ q := by
  unfold getFuzzyClass
  split
  · rename_i h; simp [h]
  · rename_i h
    split
    · simp [h]
    · simp [h]

theorem getFuzzyClass_medium (q : ℚ) :
    getFuzzyClass q = "medium" ↔ 6/10 ≤ q ∧ q < 8/10 := by
  unfold getFuzzyClass
  split
  · rename_i h; simp [not_lt.mpr h]
  · rename_i h
    split
    · rename_i h6; simp [h6, not_le.mp h]
    · rename_i h6; simp [h6]

theorem getFuzzyClass_low (q : ℚ) :
    getFuzzyClass q = "low" ↔ q < 6/10 := by
  unfold getFuzzyClass
  split
  · rename_i h
    have hle : (6:ℚ)/10 ≤ 8/10 := by norm_num
    simp [not_lt.mpr (le_trans hle h)]
  · rename_i h
    split
    · rename_i h6; simp [not_lt.mpr h6]
    · rename_i h6; simp [not_le.mp h6]

/-! ### Excel source formatting -/

theorem data_append (a b : String) : (a ++ b).data = a.data ++ b.data := by
  cases a; cases b; rfl

theorem sourceEntry_head (i : Nat) (s : ExcelSource) :
    (sourceEntry i s).data.head? = some 'S' := by
  show (("Source " ++ _).data).head? = _
  rw [data_append]
  rfl

theorem joinSep_head {sep e : String} {es : List String} {c : Char}
    (h : e.data.head? = some c) :
    (joinSep sep (e :: es)).data.head? = some c := by
  obtain ⟨t, ht⟩ : ∃ t, e.data = c :: t := by
    cases hd : e.data with
    | nil => rw [hd] at h; exact absurd h (by simp)
    | cons x xs =>
      rw [hd] at h
      injection h with h1
      exact ⟨xs, by rw [← h1]⟩
  cases es with
  | nil => exact h
  | cons b rest =>
    show ((e ++ sep) ++ joinSep sep (b :: rest)).data.head? = some c
    rw [data_append, data_append, ht]
    rfl

theorem ne_keine_of_head {y : String} (h : y.data.head? = some 'S') :
    y ≠ "Keine Quellen" := by
  intro he
  rw [he] at h
  exact absurd h (by decide)

theorem enumFrom_map_sourceEntry :
    ∀ (l : List ExcelSource) (k : Nat),
      (List.enumFrom k l).map (fun p => sourceEntry p.1 p.2) =
        (List.range l.length).map
          (fun i => sourceEntry (k + i) (l.getD i ⟨""⟩)) := by
  intro l
  induction l with
  | nil => intro k; rfl
  | cons a l' ih =>
    intro k
    have htail : (List.enumFrom (k+1) l').map (fun p => sourceEntry p.1 p.2) =
        (List.range l'.length).map
          (fun i => sourceEntry (k + (i + 1)) (l'.getD i ⟨""⟩)) := by
      rw [ih (k+1)]
      apply List.map_congr_left
      intro i _
      have harith : k + 1 + i = k + (i + 1) := by omega
      rw [harith]
    show sourceEntry k a ::
      ((List.enumFrom (k+1) l').map (fun p => sourceEntry p.1 p.2)) = _
    rw [htail, List.length_cons, List.range_succ_eq_map, List.map_cons,
      List.map_map]
    congr 1

/-! ### The claims -/

/-- C1 (counterexample): contrary to the claim, on the input
`"**Antwort**: Ja, das ist möglich."` the splitter does not return an
empty comment together with the stripped answer. -/
theorem claim1_counterexample :
    separateCommentAndAnswer "**Antwort**: Ja, das ist möglich." ≠
      ("", "Ja, das ist möglich.") := by decide

/-- C1 (amended): on `"**Antwort**: Ja, das ist möglich."` the matched
markdown answer-header pattern has a single capture group, which the code
uses both as the comment and as the working answer, so the splitter
returns the comment `"Ja, das ist möglich."` and the answer
`"Ja, das ist möglich."`. -/
theorem claim1_amended :
    separateCommentAndAnswer "**Antwort**: Ja, das ist möglich." =
      ("Ja, das ist möglich.", "Ja, das ist möglich.") := by decide

/-- C2: the confidence-band classification is a total step function with
inclusive lower bounds: `getConfidenceClass` returns `"high"` iff
score ≥ 0.7, `"medium"` iff 0.4 ≤ score < 0.7, and `"low"` iff
score < 0.4; `getFuzzyClass` returns `"high"` iff score ≥ 0.8,
`"medium"` iff 0.6 ≤ score < 0.8, and `"low"` iff score < 0.6; in
particular 0.75 and the boundary 0.7 classify as `"high"`, 0.5 as
`"medium"` and 0.1 as `"low"`. -/
theorem claim2 :
    (∀ q : ℚ,
      (getConfidenceClass q = "high" ↔ 7/10 ≤ q) ∧
      (getConfidenceClass q = "medium" ↔ 4/10 ≤ q ∧ q < 7/10) ∧
      (getConfidenceClass q = "low" ↔ q < 4/10) ∧
      (getFuzzyClass q = "high" ↔ 8/10 ≤ q) ∧
      (getFuzzyClass q = "medium" ↔ 6/10 ≤ q ∧ q < 8/10) ∧
      (getFuzzyClass q = "low" ↔ q < 6/10)) ∧
    getConfidenceClass (75/100) = "high" ∧
    getConfidenceClass (5/10) = "medium" ∧
    getConfidenceClass (1/10) = "low" ∧
    getConfidenceClass (7/10) = "high" :=
  ⟨fun q => ⟨getConfidenceClass_high q, getConfidenceClass_medium q,
    getConfidenceClass_low q, getFuzzyClass_high q, getFuzzyClass_medium q,
    getFuzzyClass_low q⟩,
   by norm_num [getConfidenceClass], by norm_num [getConfidenceClass],
   by norm_num [getConfidenceClass], by norm_num [getConfidenceClass]⟩

/-- C3 (counterexample): the splitter is not idempotent on its answer
component: for `x = "Antwort Antwort"` the clean answer is `"Antwort"`,
and re-splitting `"Antwort"` yields `""`. -/
theorem claim3_counterexample :
    (separateCommentAndAnswer
        ((separateCommentAndAnswer "Antwort Antwort").2)).2 ≠
      (separateCommentAndAnswer "Antwort Antwort").2 := by decide

/-- C3 (amended): re-splitting the clean answer changes nothing for every
input whose clean answer matches none of the comment patterns (the
counterexample `"Antwort Antwort"` re-matches the `Antwort` header
pattern; when no pattern re-fires, the unconditional post-processing is
idempotent and the answer is reproduced exactly). -/
theorem claim3_amended (s : String)
    (h : ∀ p ∈ patList, runPat p ((separateCommentAndAnswer s).2).data = none) :
    (separateCommentAndAnswer ((separateCommentAndAnswer s).2)).2 =
      (separateCommentAndAnswer s).2 := by
  have hff := findFirstMatch_eq_none h
  show String.mk (separateCore ((separateCommentAndAnswer s).2).data).2 = _
  unfold separateCore loopOutcome
  rw [hff]
  show String.mk (cleanupAnswer (cleanupAnswer (loopOutcome s.data).2)) = _
  rw [cleanupAnswer_idem]
  rfl

/-- C3 (witness): the amended statement applied to the concrete input
`"Die Antwort lautet 42."`, whose clean answer matches no pattern. -/
theorem claim3_witness :
    (separateCommentAndAnswer
        ((separateCommentAndAnswer "Die Antwort lautet 42.").2)).2 =
      (separateCommentAndAnswer "Die Antwort lautet 42.").2 :=
  claim3_amended "Die Antwort lautet 42." (by decide)

/-- C4: pattern matching in the splitter is first-match-wins over the
fixed priority order: whenever the pattern list splits as
`ps₁ ++ p :: ps₂` with every pattern of `ps₁` failing on the input and
`p` matching, the result of `separateCommentAndAnswer` equals what the
earliest matching pattern `p` alone produces — the later patterns `ps₂`
have no influence. -/
theorem claim4 (s : String) (p : Pat) (ps₁ ps₂ : List Pat)
    (h1 : patList = ps₁ ++ p :: ps₂)
    (h2 : ∀ q ∈ ps₁, runPat q s.data = none)
    (h3 : (runPat p s.data).isSome = true) :
    separateCommentAndAnswer s = resultVia p s := by
  obtain ⟨r, hr⟩ := Option.isSome_iff_exists.mp h3
  have hf : findFirstMatch patList s.data = runPat p s.data := by
    rw [h1, findFirstMatch_append h2, findFirstMatch_cons, hr]
  show (String.mk (separateCore s.data).1,
    String.mk (separateCore s.data).2) = _
  unfold separateCore loopOutcome resultVia
  rw [hf]

/-- C4 (witness): the first pattern (`Basierend auf …`) matches the
concrete input, with the empty list of earlier patterns. -/
theorem claim4_witness :
    separateCommentAndAnswer "Basierend auf Daten: Antwort folgt." =
      resultVia (Pat.cp false ["Basierend auf"])
        "Basierend auf Daten: Antwort folgt." :=
  claim4 "Basierend auf Daten: Antwort folgt."
    (Pat.cp false ["Basierend auf"]) [] (patList.drop 1) rfl
    (by intro q hq; exact absurd hq (List.not_mem_nil q)) (by decide)

/-- C5: the splitter never raises on empty or whitespace-only input: for
every string all of whose characters are JavaScript whitespace (including
the empty string), `separateCommentAndAnswer` returns `("", "")`. -/
theorem claim5 (s : String) (h : ∀ c ∈ s.data, isWs c = true) :
    separateCommentAndAnswer s = ("", "") := by
  have hff : findFirstMatch patList s.data = none := by
    apply findFirstMatch_eq_none
    intro p hp
    cases hsd : s.data with
    | nil => exact runPat_nil_none (patsFull p hp)
    | cons c x' =>
      have hcw : isWs c = true := by
        apply h
        rw [hsd]
        exact List.mem_cons_self ..
      have hcm : c ∈ wsChars := List.mem_of_elem_eq_true hcw
      exact runPat_none_of_rejects (wsRejectsAll c hcm p hp)
  have hbm : hasBMatch s.data = false :=
    hasBMatch_of_hasSS_false (hasSS_of_ws h)
  show (String.mk (separateCore s.data).1,
    String.mk (separateCore s.data).2) = _
  unfold separateCore loopOutcome
  rw [hff]
  show (String.mk [], String.mk (cleanupAnswer s.data)) = ("", "")
  unfold cleanupAnswer
  rw [stripHeader_id hbm, removeBold_id hbm, trimBoth_ws h]

/-- C5 (witness): the whitespace-only input `" \n "`. -/
theorem claim5_witness : separateCommentAndAnswer " \n " = ("", "") :=
  claim5 " \n " (by decide)

/-- C6: when no pattern in the library matches, the comment is empty and
the entire input becomes the working answer, modified only by the
unconditional post-processing; in particular
`"Die Antwort lautet 42."` is returned with an empty comment and
unchanged. -/
theorem claim6 :
    (∀ s : String, (∀ p ∈ patList, runPat p s.data = none) →
      separateCommentAndAnswer s = ("", String.mk (cleanupAnswer s.data))) ∧
    separateCommentAndAnswer "Die Antwort lautet 42." =
      ("", "Die Antwort lautet 42.") := by
  constructor
  · intro s h
    have hff := findFirstMatch_eq_none h
    show (String.mk (separateCore s.data).1,
      String.mk (separateCore s.data).2) = _
    unfold separateCore loopOutcome
    rw [hff]
    rfl
  · decide

/-- C6 (witness): the no-match input `"Der Preis beträgt 100 CHF"`. -/
theorem claim6_witness :
    separateCommentAndAnswer "Der Preis beträgt 100 CHF" =
      ("", String.mk (cleanupAnswer ("Der Preis beträgt 100 CHF").data)) :=
  claim6.1 "Der Preis beträgt 100 CHF" (by decide)

/-- C7: the German explanatory preamble of
`"Basierend auf unseren Erfahrungen: Die Lieferzeit beträgt 4 Wochen."`
is captured as the comment (terminator included) and the remainder
becomes the clean answer. -/
theorem claim7 :
    separateCommentAndAnswer
        "Basierend auf unseren Erfahrungen: Die Lieferzeit beträgt 4 Wochen." =
      ("Basierend auf unseren Erfahrungen:",
       "Die Lieferzeit beträgt 4 Wochen.") := by decide

/-- C8: regardless of whether a pattern matched, the post-processing is
applied to the working answer: the returned clean answer is exactly the
post-processed working text, and neither a leading `**…**:`-style header
nor any paired `**…**` bold span remains in it (applying either removal
again changes nothing). -/
theorem claim8 (s : String) :
    ((separateCommentAndAnswer s).2).data =
        cleanupAnswer (loopOutcome s.data).2 ∧
      stripHeader ((separateCommentAndAnswer s).2).data =
        ((separateCommentAndAnswer s).2).data ∧
      removeBold ((separateCommentAndAnswer s).2).data =
        ((separateCommentAndAnswer s).2).data := by
  refine ⟨rfl, ?_, ?_⟩
  · exact stripHeader_id (cleanupAnswer_noMatch (loopOutcome s.data).2)
  · exact removeBold_id (cleanupAnswer_noMatch (loopOutcome s.data).2)

/-- C9: for every input, the comment returned by
`separateCommentAndAnswer` contains no occurrence of the substring `**`
and has no leading or trailing whitespace (it equals its own trim). -/
theorem claim9 (s : String) :
    hasSS ((separateCommentAndAnswer s).1).data = false ∧
      trimBoth ((separateCommentAndAnswer s).1).data =
        ((separateCommentAndAnswer s).1).data := by
  show hasSS (separateCore s.data).1 = false ∧
    trimBoth (separateCore s.data).1 = (separateCore s.data).1
  unfold separateCore loopOutcome
  cases findFirstMatch patList s.data with
  | none => exact ⟨rfl, rfl⟩
  | some r =>
    obtain ⟨m1, m2⟩ := r
    show hasSS (commentOf m1) = false ∧
      trimBoth (commentOf m1) = commentOf m1
    by_cases h1 : m1.isEmpty = true
    · simp only [commentOf, if_pos h1]
      exact ⟨rfl, rfl⟩
    · by_cases h2 : (trimBoth (stripStars m1)).isEmpty = true
      · simp only [commentOf, if_neg h1, if_pos h2]
        exact ⟨rfl, rfl⟩
      · simp only [commentOf, if_neg h1, if_neg h2]
        exact ⟨hasSS_trimBoth (hasSS_stripStars m1), trimBoth_idem _⟩

/-- C10: `formatSourcesForExcel` returns `"Keine Quellen"` exactly when
the source list is null (`none`) or empty; otherwise it returns, joined
by `" | "`, one entry per source consisting of `"Source i: "`, the first
100 characters of the i-th question text, and `"..."` appended iff that
question text is longer than 100 characters (the entry shape is
`sourceEntry`). -/
theorem claim10 :
    (∀ s : Option (List ExcelSource),
      formatSourcesForExcel s = "Keine Quellen" ↔ s = none ∨ s = some []) ∧
    (∀ l : List ExcelSource, l ≠ [] →
      formatSourcesForExcel (some l) =
        joinSep " | " ((List.range l.length).map
          (fun i => sourceEntry i (l.getD i ⟨""⟩)))) := by
  constructor
  · intro s
    constructor
    · intro h
      match s with
      | none => exact Or.inl rfl
      | some [] => exact Or.inr rfl
      | some (a :: l') =>
        exfalso
        have hh : (formatSourcesForExcel (some (a :: l'))).data.head? =
            some 'S' := by
          show (joinSep " | " (sourceEntry 0 a ::
            ((List.enumFrom 1 l').map
              (fun p => sourceEntry p.1 p.2)))).data.head? = some 'S'
          exact joinSep_head (sourceEntry_head 0 a)
        rw [h] at hh
        exact absurd hh (by decide)
    · rintro (rfl | rfl) <;> rfl
  · intro l hl
    match l, hl with
    | a :: l', _ =>
      show joinSep " | " (((a :: l').enum).map (fun p => sourceEntry p.1 p.2)) = _
      rw [show ((a :: l').enum) = List.enumFrom 0 (a :: l') from rfl,
        enumFrom_map_sourceEntry (a :: l') 0]
      apply congrArg (joinSep " | ")
      apply List.map_congr_left
      intro i _
      rw [Nat.zero_add]

/-- C10 (witness): a singleton source list formats to one entry. -/
theorem claim10_witness :
    formatSourcesForExcel (some [ExcelSource.mk "Erste Frage"]) =
      joinSep " | " ((List.range
          ([ExcelSource.mk "Erste Frage"] : List ExcelSource).length).map
        (fun i => sourceEntry i
          (([ExcelSource.mk "Erste Frage"] : List ExcelSource).getD i ⟨""⟩))) :=
  claim10.2 [ExcelSource.mk "Erste Frage"] (List.cons_ne_nil _ _)

end Script
